import Mathlib

/-
  Verification of the uwheel / awheel Hierarchical Aggregation Wheel (HAW) core.

  Shallow embedding of:
    - crates/haw/src/wheels/write_ahead/mod.rs      (WriteAheadWheel)
    - crates/uwheel-core/src/rw_wheel/read/hierarchical.rs
      (Haw: tick cascade, advance, advance_to, delta_advance, query planner,
       combine_range, split_wheel_ranges, landmark, interval, window handling)

  Machine integers are modelled as Nat / Int with explicit wrap-around where the
  source performs an `as usize` cast.  Timestamps are unsigned milliseconds; an
  OffsetDateTime is modelled by its unix timestamp in whole seconds (the source
  only ever constructs them via from_unix_timestamp, at second resolution).

  Code of the repository that is not part of the given sources (the aggregation
  wheel internals, the plan cost model, WheelExt) is modelled from the spec;
  each such definition carries a doc comment starting with: Modelled from the spec.
-/

set_option maxHeartbeats 1000000

/-- Abstract aggregator contract (awheel-core aggregator interface): lift raw
input into a mutable aggregate, freeze into an immutable one, combine with a
monoid operation, optionally invert (group aggregators). -/
structure AggOps (I M P : Type) where
  lift : I → M
  combineMutable : M → I → M
  freeze : M → P
  identity : P
  combine : P → P → P
  combineInverse : Option (P → P → P)
  simdSupport : Bool

/-- The monoid laws the aggregator contract requires of combine: associativity,
commutativity, and identity. -/
def AggLawful {I M P : Type} (ag : AggOps I M P) : Prop :=
  (∀ a b c, ag.combine (ag.combine a b) c = ag.combine a (ag.combine b c)) ∧
  (∀ a b, ag.combine a b = ag.combine b a) ∧
  (∀ a, ag.combine ag.identity a = a)

/-- The group law required of combine_inverse when it exists: subtracting a
combined-in element recovers the rest. -/
def AggInvLawful {I M P : Type} (ag : AggOps I M P) : Prop :=
  ∀ f, ag.combineInverse = some f → ∀ a b, f (ag.combine b a) a = b

/-- Combine a non-empty list of partial aggregates left to right; the identity
for an empty list. -/
def cList1 {I M P : Type} (ag : AggOps I M P) : List P → P
  | [] => ag.identity
  | x :: xs => xs.foldl ag.combine x

/-- combine_or_insert from the aggregation module: merge a value into an
optional accumulator. -/
def combineOrInsert {I M P : Type} (ag : AggOps I M P) (acc : Option P) (x : P) : Option P :=
  match acc with
  | none => some x
  | some c => some (ag.combine c x)

/-- Combine a list of partial aggregates into an optional result (none iff the
list is empty). -/
def cList {I M P : Type} (ag : AggOps I M P) (l : List P) : Option P :=
  l.foldl (combineOrInsert ag) none

/-- The u64 sum aggregator (U64SumAggregator): wrapping sum on 64-bit unsigned
integers, with carrier ZMod 2^64 (wrap-around is explicit in the ring
structure).  Its combine_inverse is wrapping subtraction. -/
def U64LIMIT : Nat := 2 ^ 64

/-- U64SumAggregator as an AggOps instance. -/
def u64SumAgg : AggOps Nat (ZMod U64LIMIT) (ZMod U64LIMIT) where
  lift := fun i => (i : ZMod U64LIMIT)
  combineMutable := fun m i => m + (i : ZMod U64LIMIT)
  freeze := fun m => m
  identity := 0
  combine := fun a b => a + b
  combineInverse := some (fun a b => a - b)
  simdSupport := false

theorem u64SumAgg_lawful : AggLawful u64SumAgg := by
  refine ⟨?_, ?_, ?_⟩
  · intro a b c
    exact add_assoc a b c
  · intro a b
    exact add_comm a b
  · intro a
    exact zero_add a

theorem u64SumAgg_inv_lawful : AggInvLawful u64SumAgg := by
  intro f hf a b
  simp only [u64SumAgg, Option.some.injEq] at hf
  subst hf
  exact add_sub_cancel_right b a

/-- Plain Nat sum aggregator, used to exercise write-ahead wheel statements on
concrete inputs. -/
def natSumAgg : AggOps Nat Nat Nat where
  lift := fun i => i
  combineMutable := Nat.add
  freeze := fun m => m
  identity := 0
  combine := Nat.add
  combineInverse := some Nat.sub
  simdSupport := false

theorem natSumAgg_lawful : AggLawful natSumAgg := by
  refine ⟨?_, ?_, ?_⟩
  · intro a b c
    simp [natSumAgg]
    omega
  · intro a b
    simp [natSumAgg]
    omega
  · intro a
    simp [natSumAgg]

theorem natSumAgg_inv_lawful : AggInvLawful natSumAgg := by
  intro f hf a b
  simp only [natSumAgg, Option.some.injEq] at hf
  subst hf
  simp [natSumAgg]

/-! ## Write-ahead wheel (crates/haw/src/wheels/write_ahead/mod.rs) -/

/-- WriteAheadWheel state: a circular buffer of optional mutable aggregates with
capacity, head and tail indices. -/
structure WawW (M : Type) where
  capacity : Nat
  slots : List (Option M)
  head : Nat
  tail : Nat
deriving DecidableEq

/-- Modelled from the spec (WheelExt is not among the given sources): number of
occupied slots, head - tail mod capacity. -/
def wawLen {M : Type} (w : WawW M) : Nat :=
  (w.head + w.capacity - w.tail) % w.capacity

/-- write_ahead_len: how many write-ahead slots are available. -/
def writeAheadLen {M : Type} (w : WawW M) : Nat :=
  w.capacity - wawLen w

/-- can_write_ahead: whether an insert addend slots ahead of the head fits. -/
def canWriteAhead {M : Type} (w : WawW M) (addend : Nat) : Bool :=
  addend ≤ writeAheadLen w

/-- is_empty: tail equals head. -/
def wawIsEmpty {M : Type} (w : WawW M) : Bool :=
  w.tail == w.head

/-- WriteAheadWheel::tick: bump the head; then, if the wheel is not empty,
take and clear the slot at tail and advance tail. -/
def wawTick {M : Type} (w : WawW M) : Option M × WawW M :=
  let head1 := (w.head + 1) % w.capacity
  if w.tail == head1 then
    (none, { w with head := head1 })
  else
    (w.slots.getD w.tail none,
     { w with head := head1, tail := (w.tail + 1) % w.capacity,
              slots := w.slots.set w.tail none })

/-- WriteAheadWheel::insert: combine into an occupied slot, or lift into an
empty one. -/
def wawInsert {I M P : Type} (ag : AggOps I M P) (slot : Option M) (input : I) : Option M :=
  match slot with
  | some m => some (ag.combineMutable m input)
  | none => some (ag.lift input)

/-- WriteAheadWheel::write_ahead: place input into the slot addend positions
forward from the head (head + addend mod capacity). -/
def writeAhead {I M P : Type} (ag : AggOps I M P) (w : WawW M) (addend : Nat) (input : I) : WawW M :=
  let idx := (w.head + addend) % w.capacity
  { w with slots := w.slots.set idx (wawInsert ag (w.slots.getD idx none) input) }

/-- Modelled from the spec (the insertion caller that raises Overflow is not
among the given sources): an insertion is accepted iff can_write_ahead holds,
otherwise it fails with Overflow (returns none). -/
def tryWriteAhead {I M P : Type} (ag : AggOps I M P) (w : WawW M) (addend : Nat) (input : I) :
    Option (WawW M) :=
  if canWriteAhead w addend then some (writeAhead ag w addend input) else none

/-- A fresh write-ahead wheel of capacity 64 (the default). -/
def wawFresh64 : WawW Nat :=
  ⟨64, List.replicate 64 none, 0, 0⟩

/-- A fresh write-ahead wheel of capacity 4. -/
def wawFresh4 : WawW Nat :=
  ⟨4, List.replicate 4 none, 0, 0⟩

/-- C2 counterexample: the claim says an addend equal to write_ahead_len()
overflows, but the source (can_write_ahead: addend <= write_ahead_len) accepts
it: on a fresh capacity-64 wheel, write_ahead_len is 64 and addend 64 is
accepted, not rejected. -/
theorem c2_boundary_accepted :
    writeAheadLen wawFresh64 = 64 ∧ tryWriteAhead natSumAgg wawFresh64 64 5 ≠ none := by
  decide

/-- C2 (amended): an insertion fails with Overflow exactly when
addend > write_ahead_len(); every addend up to write_ahead_len() is accepted
and merged into slot (head + addend) mod capacity. -/
theorem c2_overflow_iff {I M P : Type} (ag : AggOps I M P) (w : WawW M) (a : Nat) (i : I) :
    (tryWriteAhead ag w a i = none ↔ writeAheadLen w < a) ∧
    (a ≤ writeAheadLen w →
      tryWriteAhead ag w a i =
        some { w with slots := w.slots.set ((w.head + a) % w.capacity) (wawInsert ag (w.slots.getD ((w.head + a) % w.capacity) none) i) }) := by
  constructor
  · unfold tryWriteAhead canWriteAhead
    by_cases h : a ≤ writeAheadLen w <;> simp [h] <;> omega
  · intro h
    unfold tryWriteAhead canWriteAhead writeAhead
    simp [h]

/-- C2 witness: the amended statement evaluated on a fresh capacity-64 wheel at
addend 3. -/
theorem c2_overflow_iff_witness :
    (tryWriteAhead natSumAgg wawFresh64 3 5 = none ↔ writeAheadLen wawFresh64 < 3) ∧
    (3 ≤ writeAheadLen wawFresh64 →
      tryWriteAhead natSumAgg wawFresh64 3 5 =
        some { wawFresh64 with slots := wawFresh64.slots.set ((wawFresh64.head + 3) % wawFresh64.capacity) (wawInsert natSumAgg (wawFresh64.slots.getD ((wawFresh64.head + 3) % wawFresh64.capacity) none) 5) }) :=
  c2_overflow_iff natSumAgg wawFresh64 3 5

/-- C3 counterexample: on an empty wheel (head = tail), tick() does not leave
tail unchanged; the head is bumped first, the wheel then looks non-empty, and
tail advances as well. -/
theorem c3_tail_advances :
    wawFresh4.head = wawFresh4.tail ∧
    ¬ ((wawTick wawFresh4).1 = none ∧
       (wawTick wawFresh4).2.tail = wawFresh4.tail ∧
       (wawTick wawFresh4).2.head = (wawFresh4.head + 1) % wawFresh4.capacity) := by
  decide

/-- C3 (amended): on a wheel with head = tail (capacity at least 2, head in
range), tick() returns the cleared contents of slots[tail] (none when that slot
is unoccupied) and advances both head and tail by one slot. -/
theorem c3_tick_empty {M : Type} (w : WawW M) (h : w.head = w.tail)
    (hc : 2 ≤ w.capacity) (hh : w.head < w.capacity) :
    wawTick w = (w.slots.getD w.tail none,
      { w with head := (w.head + 1) % w.capacity,
               tail := (w.tail + 1) % w.capacity,
               slots := w.slots.set w.tail none }) := by
  have hne : ¬ ((w.tail == (w.head + 1) % w.capacity) = true) := by
    simp only [beq_iff_eq]
    intro heq
    rcases Nat.lt_or_ge (w.head + 1) w.capacity with hlt | hge
    · rw [Nat.mod_eq_of_lt hlt] at heq
      omega
    · have hcap : w.head + 1 = w.capacity := by omega
      rw [hcap, Nat.mod_self] at heq
      omega
  simp only [wawTick]
  rw [if_neg hne]

/-- C3 witness: the amended statement on a concrete empty wheel with
head = tail = 2 and one resident (stale) value elsewhere. -/
theorem c3_tick_empty_witness :
    wawTick ⟨4, [none, some 7, none, none], 2, 2⟩ =
      ((([none, some 7, none, none] : List (Option Nat)).getD 2 none),
       { capacity := 4, slots := ([none, some 7, none, none] : List (Option Nat)).set 2 none,
         head := (2 + 1) % 4, tail := (2 + 1) % 4 }) :=
  c3_tick_empty ⟨4, [none, some 7, none, none], 2, 2⟩ rfl (by decide) (by decide)

/-! ## Time model (OffsetDateTime at second resolution, unix timestamps) -/

/-- Seconds-of-minute component of a unix timestamp. -/
def tSecond (t : Nat) : Nat := t % 60

/-- Minutes-of-hour component of a unix timestamp. -/
def tMinute (t : Nat) : Nat := t / 60 % 60

/-- Hours-of-day component of a unix timestamp. -/
def tHour (t : Nat) : Nat := t / 3600 % 24

/-- Day of month (1..31) from a count of days since 1970-01-01, by the standard
civil-from-days calendar algorithm (the date math the time crate performs). -/
def civilDayOfMonth (days : Nat) : Nat :=
  let z := days + 719468
  let era := z / 146097
  let doe := z - era * 146097
  let yoe := (doe - doe / 1460 + doe / 36524 - doe / 146096) / 365
  let doy := doe - (365 * yoe + yoe / 4 - yoe / 100)
  let mp := (5 * doy + 2) / 153
  doy - (153 * mp + 2) / 5 + 1

/-- Day-of-month component of a unix timestamp. -/
def tDay (t : Nat) : Nat := civilDayOfMonth (t / 86400)

/-- Day of month is always at least 1, so the source's is_days test
(day != 0) always succeeds and its weeks/years unimplemented branch in
lowest_granularity is unreachable. -/
theorem tDay_pos (t : Nat) : 1 ≤ tDay t := by
  simp only [tDay, civilDayOfMonth]
  exact Nat.le_add_left 1 _

/-- WheelRange: a closed-open interval of timestamps [start, stop).  The source
field named end is a Lean keyword, hence stop. -/
structure WR where
  start : Nat
  stop : Nat
deriving DecidableEq

/-- Time granularities supported by range queries. -/
inductive Granularity where
  | Second
  | Minute
  | Hour
  | Day
deriving DecidableEq

/-- Number of seconds covered by one slot of each granularity. -/
def granSecs : Granularity → Nat
  | .Second => 1
  | .Minute => 60
  | .Hour => 3600
  | .Day => 86400

/-- WheelRange::lowest_granularity: the finest granularity with a non-zero
component in either endpoint.  Day-of-month is never zero (tDay_pos), so the
final branch is Day and the source's unimplemented weeks/years panic is
unreachable. -/
def lowestGranularity (r : WR) : Granularity :=
  if tSecond r.start ≠ 0 ∨ tSecond r.stop ≠ 0 then .Second
  else if tMinute r.start ≠ 0 ∨ tMinute r.stop ≠ 0 then .Minute
  else if tHour r.start ≠ 0 ∨ tHour r.stop ≠ 0 then .Hour
  else .Day

/-- WheelRange::scan_estimation: the range duration in units of the lowest
granularity (i64 in the source; Int here, truncated division as in Rust). -/
def scanEstimation (r : WR) : Int :=
  let dur : Int := (r.stop : Int) - (r.start : Int)
  match lowestGranularity r with
  | .Second => dur
  | .Minute => Int.tdiv dur 60
  | .Hour => Int.tdiv dur 3600
  | .Day => Int.tdiv dur 86400

/-- Wrapping i64-to-usize cast (64-bit two's complement reinterpretation). -/
def usizeWrap (n : Int) : Nat := (n % (U64LIMIT : Int)).toNat

/-! ## Range splitting (Haw::split_wheel_ranges, Haw::new_curr_end) -/

/-- Haw::new_curr_end: from current_start, the next alignment point (next
minute boundary if inside a minute, else next hour boundary, else next day
boundary, else a 31-day-of-month jump); if that exceeds the range stop, jump by
the largest whole remaining unit instead.  When day = 31 at a midnight-aligned
point the day jump is zero and the result equals current_start (the deadlock
the source comments on). -/
def newCurrEnd (cs stop : Nat) : Nat :=
  let s := tSecond cs
  let m := tMinute cs
  let h := tHour cs
  let next : Nat :=
    if s > 0 then 60 - s
    else if m > 0 then 60 * (60 - m)
    else if h > 0 then 3600 * (24 - h)
    else 86400 * (31 - tDay cs)
  let nextAligned := cs + next
  if nextAligned > stop then
    let rem := stop - cs
    let remMins := rem / 60
    let remHours := rem / 3600
    let remDays := rem / 86400
    if remDays > 0 then cs + 86400 * remDays
    else if remHours > 0 then cs + 3600 * remHours
    else if remMins > 0 then cs + 60 * remMins
    else cs + rem
  else nextAligned

/-- The split_wheel_ranges loop body, with explicit fuel.  The source loops
while current_start < stop; every productive iteration advances current_start
by at least one whole second, so a terminating run makes at most stop - start
iterations.  If new_curr_end ever fails to advance (the day-31 stuck state) the
source loops forever; here that run returns none (either via the progress check
or by fuel exhaustion). -/
def splitGo (stop : Nat) : Nat → Nat → Option (List WR)
  | 0, cs => if cs < stop then none else some []
  | fuel + 1, cs =>
    if cs < stop then
      let ce := newCurrEnd cs stop
      if ce ≤ cs then none
      else
        match splitGo stop fuel ce with
        | none => none
        | some rs => some (⟨cs, ce⟩ :: rs)
    else some []

/-- Haw::split_wheel_ranges: split [start, stop) into non-overlapping aligned
sub-ranges; none models the non-terminating runs of the source loop. -/
def splitWheelRanges (r : WR) : Option (List WR) :=
  splitGo r.stop (r.stop - r.start + 1) r.start

/-- C7: at the very input named in the source comment (start = 2018-08-31
00:00:00 UTC, end = 2018-08-31 00:05:00 UTC) new_curr_end makes no progress
(day-of-month is 31, the day jump is 0 days), so the split loop never
terminates: no amount of fuel produces a result. -/
theorem c7_split_day31_stuck :
    newCurrEnd 1535673600 1535673900 = 1535673600 ∧
    (∀ fuel, splitGo 1535673900 fuel 1535673600 = none) ∧
    splitWheelRanges ⟨1535673600, 1535673900⟩ = none := by
  have hst : newCurrEnd 1535673600 1535673900 = 1535673600 := by decide
  have hall : ∀ fuel, splitGo 1535673900 fuel 1535673600 = none := by
    intro fuel
    cases fuel with
    | zero => decide
    | succ n =>
      simp [splitGo, hst]
  exact ⟨hst, hall, hall _⟩

/-! ## Aggregation wheels (modelled from the spec; the AggregationWheel and
MaybeWheel sources are not among the given files) -/

/-- Retention policy of a wheel. -/
inductive Retention where
  | Drop
  | Keep
deriving DecidableEq

/-- Data layout of a wheel (Array, or the prefix-sum layout). -/
inductive Layout where
  | Array
  | PrefixSum
deriving DecidableEq

/-- Modelled from the spec: per-granularity WheelConf: capacity, retention
policy, data layout, initial watermark in milliseconds. -/
structure WConf where
  capacity : Nat
  retention : Retention
  layout : Layout
  watermarkMs : Nat
deriving DecidableEq

/-- Modelled from the spec: an AggregationWheel.  slots is the list of
completed slots, oldest first (all retained history under Keep, the most
recent capacity slots under Drop); ticks counts completed wheel ticks; pending
is the head slot being built before the tick that completes it. -/
structure AggWheelM (P : Type) where
  conf : WConf
  ticks : Nat
  slots : List P
  pending : Option P
deriving DecidableEq

/-- Modelled from the spec: insert_head combines into the head slot under
construction. -/
def wInsertHead {I M P : Type} (ag : AggOps I M P) (p : P) (w : AggWheelM P) : AggWheelM P :=
  { w with pending := some (match w.pending with
      | none => p
      | some q => ag.combine q p) }

/-- Modelled from the spec: insert_slot is a post-rotation fresh write of the
lower wheel's rollup into the newly vacated slot. -/
def wInsertSlot {P : Type} (p : P) (w : AggWheelM P) : AggWheelM P :=
  { w with pending := some p }

/-- Modelled from the spec: tick completes the head slot (identity when
nothing was inserted) and advances the wheel; on a full rotation (a multiple
of capacity ticks) the combination of the rotation's slots is returned as the
rollup for the next granularity.  Drop retention evicts all but the most
recent capacity slots; Keep retains everything. -/
def wTick {I M P : Type} (ag : AggOps I M P) (w : AggWheelM P) : AggWheelM P × Option P :=
  let v := w.pending.getD ag.identity
  let slots1 := w.slots ++ [v]
  let t1 := w.ticks + 1
  let roll := if t1 % w.conf.capacity = 0 then
      some (cList1 ag (slots1.drop (slots1.length - w.conf.capacity)))
    else none
  let slots2 := match w.conf.retention with
    | .Keep => slots1
    | .Drop => slots1.drop (slots1.length - w.conf.capacity)
  ({ w with ticks := t1, slots := slots2, pending := none }, roll)

/-- Modelled from the spec rotation-accounting invariant (seconds in cycle =
sum over wheels of rotation_count times slot seconds): rotation_count is the
wheel position inside its current rotation. -/
def wRotationCount {P : Type} (w : AggWheelM P) : Nat := w.ticks % w.conf.capacity

/-- Modelled from the spec: total(), the landmark aggregate of the current
rotation: the combination of the slots completed since the last rotation,
none when the rotation is fresh. -/
def wTotal {I M P : Type} (ag : AggOps I M P) (w : AggWheelM P) : Option P :=
  let r := w.ticks % w.conf.capacity
  if r = 0 then none
  else some (cList1 ag (w.slots.drop (w.slots.length - r)))

/-- Modelled from the spec: aggregate(start, n, gran) combines the n slots
covering [start, start + n * gran seconds) counted back from the wheel's
current watermark; none when the count is zero or the span is not fully inside
retained history. -/
def wAggregate {I M P : Type} (ag : AggOps I M P) (w : AggWheelM P) (start n gs : Nat) : Option P :=
  let wm := w.conf.watermarkMs / 1000 + gs * w.ticks
  let dist := (wm - start) / gs
  if n ≠ 0 ∧ start ≤ wm ∧ n ≤ dist ∧ dist ≤ w.slots.length then
    some (cList1 ag ((w.slots.drop (w.slots.length - dist)).take n))
  else none

/-- MaybeWheel: a lazily allocated aggregation wheel plus its configuration. -/
structure MaybeWheelM (P : Type) where
  conf : WConf
  inner : Option (AggWheelM P)
deriving DecidableEq

/-- MaybeWheel::get_or_insert: the wheel, allocated fresh from the
configuration on first use. -/
def mwGetOrInsert {P : Type} (mw : MaybeWheelM P) : AggWheelM P :=
  mw.inner.getD { conf := mw.conf, ticks := 0, slots := [], pending := none }

/-- MaybeWheel::aggregate: none when the wheel was never allocated. -/
def mwAggregate {I M P : Type} (ag : AggOps I M P) (mw : MaybeWheelM P) (start n gs : Nat) :
    Option P :=
  mw.inner.bind (fun w => wAggregate ag w start n gs)

/-- MaybeWheel::total: none when the wheel was never allocated. -/
def mwTotal {I M P : Type} (ag : AggOps I M P) (mw : MaybeWheelM P) : Option P :=
  mw.inner.bind (wTotal ag)

/-- MaybeWheel::rotation_count: zero when the wheel was never allocated. -/
def mwRotationCount {P : Type} (mw : MaybeWheelM P) : Nat :=
  (mw.inner.map wRotationCount).getD 0

/-- MaybeWheel::clear. -/
def mwClear {P : Type} (mw : MaybeWheelM P) : MaybeWheelM P := { mw with inner := none }

/-! ## Sliding-window manager (modelled from the spec, section 4.7; the window
module sources are not among the given files) -/

/-- Modelled from the spec: pair-based sliding window state plus the stack of
pair aggregates making up the current window. -/
structure WindowM (P : Type) where
  rangeMs : Nat
  slideMs : Nat
  pairTicksRemaining : Nat
  currentPairLen : Nat
  nextPairEnd : Nat
  nextWindowEnd : Nat
  pairIsP1 : Bool
  stack : List P
deriving DecidableEq

/-- Modelled from the spec: the two alternating pair lengths; slide alone for
aligned slides, slide and range minus slide otherwise. -/
def pairLens (rangeMs slideMs : Nat) : Nat × Nat :=
  if rangeMs % slideMs = 0 then (slideMs, slideMs) else (slideMs, rangeMs - slideMs)

/-- Modelled from the spec: WindowManager::new at a given watermark. -/
def mkWindow {P : Type} (wm rangeMs slideMs : Nat) : WindowM P :=
  let p := pairLens rangeMs slideMs
  { rangeMs := rangeMs, slideMs := slideMs,
    pairTicksRemaining := p.1 / 1000,
    currentPairLen := p.1,
    nextPairEnd := wm + p.1,
    nextWindowEnd := wm + rangeMs,
    pairIsP1 := true,
    stack := [] }

/-- Modelled from the spec: update_pair_len toggles between the two pair
lengths. -/
def wmUpdatePairLen {P : Type} (w : WindowM P) : WindowM P :=
  let p := pairLens w.rangeMs w.slideMs
  if w.pairIsP1 then { w with pairIsP1 := false, currentPairLen := p.2 }
  else { w with pairIsP1 := true, currentPairLen := p.1 }

/-! ## HAW state and tick cascade (hierarchical.rs) -/

/-- Optimizer configuration and the generate_deltas flag of HawConf. -/
structure HawFlags where
  useHints : Bool
  simdThreshold : Nat
  generateDeltas : Bool
deriving DecidableEq

/-- Haw state: watermark in milliseconds, the six granularity wheels, flags,
the delta log, and the optional window manager. -/
structure HawS (P : Type) where
  watermark : Nat
  seconds : MaybeWheelM P
  minutes : MaybeWheelM P
  hours : MaybeWheelM P
  days : MaybeWheelM P
  weeks : MaybeWheelM P
  years : MaybeWheelM P
  flags : HawFlags
  delta : List (Option P)
  windowManager : Option (WindowM P)
deriving DecidableEq

/-- Haw::new with the default capacities (60/60/24/7/52/10), a uniform
retention policy and layout, and an initial watermark in milliseconds. -/
def freshHaw {P : Type} (w0 : Nat) (ret : Retention) (lay : Layout) (flags : HawFlags) :
    HawS P :=
  let mk : Nat → MaybeWheelM P := fun cap => ⟨⟨cap, ret, lay, w0⟩, none⟩
  { watermark := w0, seconds := mk 60, minutes := mk 60, hours := mk 24,
    days := mk 7, weeks := mk 52, years := mk 10,
    flags := flags, delta := [], windowManager := none }

/-- Haw::tick: raise the watermark by one second, insert the frozen partial
(identity when none) at the seconds wheel head, and cascade full rotations up
through minutes, hours, days, weeks and years; a years rotation is discarded. -/
def hawTick {I M P : Type} (ag : AggOps I M P) (st : HawS P) (d : Option P) : HawS P :=
  let p := d.getD ag.identity
  let s1 := wTick ag (wInsertHead ag p (mwGetOrInsert st.seconds))
  let st1 := { st with
    watermark := st.watermark + 1000,
    seconds := { st.seconds with inner := some s1.1 } }
  match s1.2 with
  | none => st1
  | some rot1 =>
    let m1 := wTick ag (wInsertSlot rot1 (mwGetOrInsert st1.minutes))
    let st2 := { st1 with minutes := { st1.minutes with inner := some m1.1 } }
    match m1.2 with
    | none => st2
    | some rot2 =>
      let h1 := wTick ag (wInsertSlot rot2 (mwGetOrInsert st2.hours))
      let st3 := { st2 with hours := { st2.hours with inner := some h1.1 } }
      match h1.2 with
      | none => st3
      | some rot3 =>
        let d1 := wTick ag (wInsertSlot rot3 (mwGetOrInsert st3.days))
        let st4 := { st3 with days := { st3.days with inner := some d1.1 } }
        match d1.2 with
        | none => st4
        | some rot4 =>
          let w1 := wTick ag (wInsertSlot rot4 (mwGetOrInsert st4.weeks))
          let st5 := { st4 with weeks := { st4.weeks with inner := some w1.1 } }
          match w1.2 with
          | none => st5
          | some rot5 =>
            let y1 := wTick ag (wInsertSlot rot5 (mwGetOrInsert st5.years))
            { st5 with years := { st5.years with inner := some y1.1 } }

/-- Haw::delta_advance: tick once per delta, in iterator order. -/
def deltaAdvance {I M P : Type} (ag : AggOps I M P) (st : HawS P) (ds : List (Option P)) :
    HawS P :=
  ds.foldl (hawTick ag) st

/-- Haw::clear: clear the state of all wheels. -/
def hawClear {P : Type} (st : HawS P) : HawS P :=
  { st with
    seconds := mwClear st.seconds, minutes := mwClear st.minutes,
    hours := mwClear st.hours, days := mwClear st.days,
    weeks := mwClear st.weeks, years := mwClear st.years }

/-- Haw::current_time_in_cycle, in whole seconds. -/
def cycleTimeSecs {P : Type} (st : HawS P) : Nat :=
  mwRotationCount st.seconds
  + mwRotationCount st.minutes * 60
  + mwRotationCount st.hours * 3600
  + mwRotationCount st.days * 86400
  + mwRotationCount st.weeks * 604800
  + mwRotationCount st.years * 31449600

/-- Haw::CYCLE_LENGTH in whole seconds: eleven years' worth of seconds (ten
years of slots plus one extra year to force a full cycle rotation). -/
def CYCLE_LEN_SECS : Nat := 31449600 * (10 + 1)

/-! ## Query planner (hierarchical.rs: create_exec_plan and friends) -/

/-- Per-wheel aggregation strategy: a scan of n slots, or an O(1) prefix-sum
lookup. -/
inductive Aggregation where
  | Scan (n : Nat)
  | PrefixO1
deriving DecidableEq

/-- Modelled from the spec cost model (the plan module sources are not among
the given files): a scan costs its length, a prefix lookup is O(1). -/
def aggregationCost : Aggregation → Nat
  | .Scan n => n
  | .PrefixO1 => 1

/-- WheelAggregation plan: a range plus the chosen per-wheel strategy. -/
structure WheelAgg where
  range : WR
  plan : Aggregation
deriving DecidableEq

/-- Cost of a wheel aggregation plan. -/
def wheelAggCost (w : WheelAgg) : Nat := aggregationCost w.plan

/-- ExecutionPlan: the four query execution strategies. -/
inductive ExecPlan where
  | WheelAggregation (w : WheelAgg)
  | CombinedAggregation (aggs : List WheelAgg)
  | LandmarkAggregation
  | InverseLandmarkAggregation (aggs : List WheelAgg)
deriving DecidableEq

/-- Modelled from the spec cost model: landmark costs the five combines across
the six granularity totals; inverse landmark adds its gap plans; combined sums
its sub-plans. -/
def planCost : ExecPlan → Nat
  | .WheelAggregation w => wheelAggCost w
  | .CombinedAggregation aggs => (aggs.map wheelAggCost).sum
  | .LandmarkAggregation => 5
  | .InverseLandmarkAggregation aggs => 5 + (aggs.map wheelAggCost).sum

/-- Modelled from the spec (return the minimum-cost plan): cmp::min under the
cost ordering; Rust Ord::min returns its second argument on ties. -/
def minPlan (a b : ExecPlan) : ExecPlan :=
  if planCost b ≤ planCost a then b else a

/-- ExecutionPlan::is_prefix_or_landmark. -/
def isPrefOrLandmark : ExecPlan → Bool
  | .LandmarkAggregation => true
  | .WheelAggregation w => match w.plan with | .PrefixO1 => true | .Scan _ => false
  | _ => false

/-- The wheel of the given granularity. -/
def wheelForGran {P : Type} (st : HawS P) : Granularity → MaybeWheelM P
  | .Second => st.seconds
  | .Minute => st.minutes
  | .Hour => st.hours
  | .Day => st.days

/-- Modelled from the spec: MaybeWheel::aggregate_plan chooses the O(1) prefix
plan under the prefix layout, otherwise a scan of the range's length in
granularity units (an i64 cast to usize in the source, hence the wrap). -/
def aggregatePlanM {P : Type} (mw : MaybeWheelM P) (r : WR) : Aggregation :=
  match mw.conf.layout with
  | .PrefixSum => .PrefixO1
  | .Array => .Scan (usizeWrap (scanEstimation r))

/-- Haw::wheel_aggregation_plan. -/
def wheelAggregationPlan {P : Type} (st : HawS P) (r : WR) : WheelAgg :=
  ⟨r, aggregatePlanM (wheelForGran st (lowestGranularity r)) r⟩

/-- granularity_score used to sort combined sub-ranges (0 seconds, 1 minutes,
2 hours, 3 days). -/
def granularityScore (r : WR) : Nat :=
  if tSecond r.start > 0 ∨ tSecond r.stop > 0 then 0
  else if tMinute r.start > 0 ∨ tMinute r.stop > 0 then 1
  else if tHour r.start > 0 ∨ tHour r.stop > 0 then 2
  else 3

/-- Haw::combined_aggregation_plan: one wheel plan per sub-range, sorted by
ascending granularity score (the source sort_unstable_by; any sort realizes
the same multiset of sub-plans). -/
def combinedAggregationPlan {P : Type} (st : HawS P) (rs : List WR) : List WheelAgg :=
  (rs.map (wheelAggregationPlan st)).mergeSort
    (fun a b => granularityScore a.range ≤ granularityScore b.range)

/-- Haw::create_exec_plan: best wheel plan, landmark when it covers the whole
of retained history, early exit on O(1) plans or sub-minute ranges, an inverse
landmark candidate for invertible aggregators, and a combined candidate from
the range splitting (none when the split loop diverges). -/
def createExecPlan {I M P : Type} (ag : AggOps I M P) (st : HawS P) (r : WR) :
    Option ExecPlan :=
  let best0 := ExecPlan.WheelAggregation (wheelAggregationPlan st r)
  let wheelStart := st.watermark - 1000 * cycleTimeSecs st
  let endMs := 1000 * r.stop
  let startMs := 1000 * r.start
  let best1 := if startMs ≤ wheelStart ∧ st.watermark ≤ endMs then
      ExecPlan.LandmarkAggregation
    else best0
  if isPrefOrLandmark best1 ∨ ((r.stop : Int) - (r.start : Int) < 60) then some best1
  else
    let best2 := if ag.combineInverse.isSome then
        let gap1 := wheelAggregationPlan st ⟨wheelStart / 1000, r.start⟩
        let aggs := if endMs < st.watermark then
            [gap1, wheelAggregationPlan st ⟨r.stop, st.watermark / 1000⟩]
          else [gap1]
        minPlan best1 (.InverseLandmarkAggregation aggs)
      else best1
    let doCombined := if st.flags.useHints ∧ ag.simdSupport then
        st.flags.simdThreshold < planCost best2
      else true
    if doCombined then
      match splitWheelRanges r with
      | none => none
      | some rs => some (minPlan best2 (.CombinedAggregation (combinedAggregationPlan st rs)))
    else some best2

/-! ## Query execution (hierarchical.rs) -/

/-- Haw::wheel_aggregation: aggregate [start, stop) on the wheel of the
range's lowest granularity (the source asserts stop >= start; the failing
assert is modelled as no result). -/
def wheelAggregationExec {I M P : Type} (ag : AggOps I M P) (st : HawS P) (r : WR) : Option P :=
  if r.start ≤ r.stop then
    let gran := lowestGranularity r
    let n := (r.stop - r.start) / granSecs gran
    mwAggregate ag (wheelForGran st gran) r.start n (granSecs gran)
  else none

/-- Haw::reduce: fold optional partials, combining the present ones. -/
def reduceOpt {I M P : Type} (ag : AggOps I M P) (l : List (Option P)) : Option P :=
  l.foldl (fun acc b =>
    match acc, b with
    | some c, some x => some (ag.combine c x)
    | none, some x => some x
    | _, _ => acc) none

/-- Haw::analyze_landmark: reduce the six wheel totals. -/
def analyzeLandmark {I M P : Type} (ag : AggOps I M P) (st : HawS P) : Option P :=
  reduceOpt ag
    [mwTotal ag st.seconds, mwTotal ag st.minutes, mwTotal ag st.hours,
     mwTotal ag st.days, mwTotal ag st.weeks, mwTotal ag st.years]

/-- Haw::combined_aggregation: fold the sub-plan results with
combine_or_insert, skipping absent ones. -/
def combinedAggregationExec {I M P : Type} (ag : AggOps I M P) (st : HawS P)
    (aggs : List WheelAgg) : Option P :=
  aggs.foldl (fun acc wa =>
    match wheelAggregationExec ag st wa.range with
    | some a => combineOrInsert ag acc a
    | none => acc) none

/-- Haw::inverse_landmark_aggregation: start from the landmark total and
subtract each gap aggregation with combine_inverse. -/
def inverseLandmarkExec {I M P : Type} (ag : AggOps I M P) (st : HawS P)
    (aggs : List WheelAgg) : Option P :=
  match ag.combineInverse with
  | none => none
  | some f =>
    some (aggs.foldl
      (fun acc wa => f acc ((wheelAggregationExec ag st wa.range).getD ag.identity))
      ((analyzeLandmark ag st).getD ag.identity))

/-- Dispatch a plan to its execution strategy (combine_range_inner match). -/
def executePlan {I M P : Type} (ag : AggOps I M P) (st : HawS P) : ExecPlan → Option P
  | .WheelAggregation w => wheelAggregationExec ag st w.range
  | .CombinedAggregation aggs => combinedAggregationExec ag st aggs
  | .LandmarkAggregation => analyzeLandmark ag st
  | .InverseLandmarkAggregation aggs => inverseLandmarkExec ag st aggs

/-- Haw::combine_range: plan, then execute.  The outer none models a planning
phase that never terminates (the split loop stuck state); the source asserts
stop > start, a violating range is modelled as no result. -/
def combineRange {I M P : Type} (ag : AggOps I M P) (st : HawS P) (r : WR) :
    Option (Option P) :=
  if r.start < r.stop then
    match createExecPlan ag st r with
    | none => none
    | some p => some (executePlan ag st p)
  else some none

/-- Haw::interval: combine_range over [now - dur, now). -/
def intervalQ {I M P : Type} (ag : AggOps I M P) (st : HawS P) (durSecs : Nat) :
    Option (Option P) :=
  let toT := st.watermark / 1000
  combineRange ag st ⟨toT - durSecs, toT⟩

/-! ## Advancing time (hierarchical.rs: advance, advance_to, windows) -/

/-- The tail of handle_window_maybe once the completed pair has been
aggregated: push the pair, rotate the pair length, and on a window boundary
emit the window result and pop the oldest pair. -/
def windowEmit {I M P : Type} (ag : AggOps I M P) (st : HawS P) (mgr : WindowM P)
    (pair : Option P) (ws : List (Nat × P)) : HawS P × List (Nat × P) :=
  let mgr1 := wmUpdatePairLen { mgr with stack := mgr.stack ++ [pair.getD ag.identity] }
  let mgr2 := { mgr1 with
    nextPairEnd := st.watermark + mgr1.currentPairLen,
    pairTicksRemaining := mgr1.currentPairLen / 1000 }
  if st.watermark = mgr2.nextWindowEnd then
    let res := cList1 ag mgr2.stack
    let mgr3 := { mgr2 with
      stack := mgr2.stack.drop 1,
      nextWindowEnd := mgr2.nextWindowEnd + mgr2.slideMs }
    ({ st with windowManager := some mgr3 }, ws ++ [(st.watermark, res)])
  else ({ st with windowManager := some mgr2 }, ws)

/-- Haw::handle_window_maybe: decrement the pair countdown; at zero, aggregate
the completed pair with combine_range, then emit via windowEmit.  The outer
none models a pair query whose planning diverges. -/
def handleWindowMaybe {I M P : Type} (ag : AggOps I M P) (st : HawS P)
    (ws : List (Nat × P)) : Option (HawS P × List (Nat × P)) :=
  match st.windowManager with
  | none => some (st, ws)
  | some mgr0 =>
    let mgr := { mgr0 with pairTicksRemaining := mgr0.pairTicksRemaining - 1 }
    if mgr.pairTicksRemaining ≠ 0 then some ({ st with windowManager := some mgr }, ws)
    else
      let fromT := (st.watermark - mgr.currentPairLen) / 1000
      let toT := st.watermark / 1000
      match combineRange ag { st with windowManager := some mgr } ⟨fromT, toT⟩ with
      | none => none
      | some pair => some (windowEmit ag st mgr pair ws)

/-- One iteration of the Haw::advance loop: tick the write-ahead wheel, freeze
the mutable aggregate, record the delta when configured, tick the HAW, then
handle any configured window. -/
def advanceStep {I M P : Type} (ag : AggOps I M P)
    (x : HawS P × WawW M × List (Nat × P)) : Option (HawS P × WawW M × List (Nat × P)) :=
  let st := x.1
  let waw := x.2.1
  let ws := x.2.2
  let t := wawTick waw
  let d := t.1.map ag.freeze
  let st1 := if st.flags.generateDeltas then { st with delta := st.delta ++ [d] } else st
  let st2 := hawTick ag st1 d
  (handleWindowMaybe ag st2 ws).map (fun y => (y.1, t.2, y.2))

/-- The Haw::advance loop, iterated a fixed number of ticks. -/
def advanceLoop {I M P : Type} (ag : AggOps I M P) :
    Nat → HawS P × WawW M × List (Nat × P) → Option (HawS P × WawW M × List (Nat × P))
  | 0, x => some x
  | n + 1, x => (advanceStep ag x).bind (advanceLoop ag n)

/-- Haw::advance: ticks = duration.whole_seconds() as usize (i64 truncating
division, then a wrapping cast); run that many ticks when the count is within
one full cycle, otherwise clear all wheels. -/
def hawAdvance {I M P : Type} (ag : AggOps I M P) (st : HawS P) (waw : WawW M)
    (durMs : Int) : Option (HawS P × WawW M × List (Nat × P)) :=
  let ticks := usizeWrap (Int.tdiv durMs 1000)
  if ticks ≤ CYCLE_LEN_SECS then advanceLoop ag ticks (st, waw, [])
  else some (hawClear st, waw, [])

/-- Haw::advance_to: advance by the saturating difference to the new
watermark (clock regress clamps to zero progress). -/
def hawAdvanceTo {I M P : Type} (ag : AggOps I M P) (st : HawS P) (waw : WawW M)
    (wmNew : Nat) : Option (HawS P × WawW M × List (Nat × P)) :=
  hawAdvance ag st waw ((wmNew - st.watermark : Nat) : Int)

/-- WriterWheel::default(): a fresh write-ahead wheel with the default 64
slots (used by Haw::merge to align watermarks). -/
def defaultWaw (M : Type) : WawW M :=
  ⟨64, List.replicate 64 none, 0, 0⟩

/-- Modelled from the spec (combines per-wheel): pad the older history with
identities and combine slot-wise, aligned at the newest end. -/
def mergeSlots {I M P : Type} (ag : AggOps I M P) (xs ys : List P) : List P :=
  let n := max xs.length ys.length
  let pad := fun (l : List P) => List.replicate (n - l.length) ag.identity ++ l
  List.zipWith ag.combine (pad xs) (pad ys)

/-- Modelled from the spec: MaybeWheel::merge, combining the wheels slot-wise
when both are allocated. -/
def mwMerge {I M P : Type} (ag : AggOps I M P) (a b : MaybeWheelM P) : MaybeWheelM P :=
  match a.inner, b.inner with
  | none, x => { a with inner := x }
  | some _, none => a
  | some wa, some wb =>
    { a with inner := some { wa with slots := mergeSlots ag wa.slots wb.slots } }

/-- Merge all six aggregation wheels of two aligned HAWs. -/
def mergeWheels {I M P : Type} (ag : AggOps I M P) (a b : HawS P) : HawS P :=
  { a with
    seconds := mwMerge ag a.seconds b.seconds,
    minutes := mwMerge ag a.minutes b.minutes,
    hours := mwMerge ag a.hours b.hours,
    days := mwMerge ag a.days b.days,
    weeks := mwMerge ag a.weeks b.weeks,
    years := mwMerge ag a.years b.years }

/-- Haw::merge: align the two watermarks by advancing the later-running wheel
with a default (empty) writer wheel, then merge per wheel. -/
def hawMerge {I M P : Type} (ag : AggOps I M P) (self other : HawS P) : Option (HawS P) :=
  if other.watermark < self.watermark then
    (hawAdvanceTo ag other (defaultWaw M) self.watermark).map (fun o => mergeWheels ag self o.1)
  else
    (hawAdvanceTo ag self (defaultWaw M) other.watermark).map (fun o => mergeWheels ag o.1 other)

/-- Haw::window: install a periodic window (the source asserts range >= slide;
a violating call is modelled as no result). -/
def hawWindow {P : Type} (st : HawS P) (rangeMs slideMs : Nat) : Option (HawS P) :=
  if slideMs ≤ rangeMs then
    some { st with windowManager := some (mkWindow st.watermark rangeMs slideMs) }
  else none

/-- The public operations of the HAW surface (queries touch only access
statistics, which the model does not carry, so they leave the state as is). -/
inductive HawOp (P : Type) where
  | advance (durMs : Int)
  | advanceTo (wmNew : Nat)
  | deltaAdv (ds : List (Option P))
  | windowInstall (rangeMs slideMs : Nat)
  | merge (other : HawS P)
  | query (r : WR)

/-- Apply one public operation to a HAW plus its writer wheel; none models a
panic or a non-terminating run. -/
def applyOp {I M P : Type} (ag : AggOps I M P) (op : HawOp P) (x : HawS P × WawW M) :
    Option (HawS P × WawW M) :=
  match op with
  | .advance d => (hawAdvance ag x.1 x.2 d).map (fun o => (o.1, o.2.1))
  | .advanceTo w => (hawAdvanceTo ag x.1 x.2 w).map (fun o => (o.1, o.2.1))
  | .deltaAdv ds => some (deltaAdvance ag x.1 ds, x.2)
  | .windowInstall r s => (hawWindow x.1 r s).map (fun st => (st, x.2))
  | .merge other => (hawMerge ag x.1 other).map (fun st => (st, x.2))
  | .query r => (combineRange ag x.1 r).map (fun _ => x)

/-- Apply a sequence of public operations left to right. -/
def applyOps {I M P : Type} (ag : AggOps I M P) (ops : List (HawOp P))
    (x : HawS P × WawW M) : Option (HawS P × WawW M) :=
  ops.foldl (fun acc op => acc.bind (applyOp ag op)) (some x)

theorem hawTick_watermark {I M P : Type} (ag : AggOps I M P) (st : HawS P) (d : Option P) :
    (hawTick ag st d).watermark = st.watermark + 1000 := by
  unfold hawTick
  dsimp only
  (repeat' split) <;> rfl

theorem deltaAdvance_watermark {I M P : Type} (ag : AggOps I M P) (st : HawS P)
    (ds : List (Option P)) :
    (deltaAdvance ag st ds).watermark = st.watermark + 1000 * ds.length := by
  induction ds generalizing st with
  | nil => simp [deltaAdvance]
  | cons d ds ih =>
    simp only [deltaAdvance, List.foldl_cons] at *
    rw [ih, hawTick_watermark]
    simp [Nat.mul_succ]
    ring

theorem windowEmit_watermark {I M P : Type} (ag : AggOps I M P) (st : HawS P)
    (mgr : WindowM P) (pair : Option P) (ws : List (Nat × P)) :
    (windowEmit ag st mgr pair ws).1.watermark = st.watermark := by
  unfold windowEmit
  dsimp only
  split <;> rfl

theorem handleWindowMaybe_watermark {I M P : Type} (ag : AggOps I M P) (st : HawS P)
    (ws : List (Nat × P)) (y : HawS P × List (Nat × P))
    (h : handleWindowMaybe ag st ws = some y) : y.1.watermark = st.watermark := by
  unfold handleWindowMaybe at h
  split at h
  · rw [Option.some_inj] at h
    rw [← h]
  · dsimp only at h
    split at h
    · rw [Option.some_inj] at h
      rw [← h]
    · split at h
      · exact absurd h (by simp)
      · rw [Option.some_inj] at h
        rw [← h]
        exact windowEmit_watermark ag st _ _ ws

theorem advanceStep_watermark {I M P : Type} (ag : AggOps I M P)
    (x y : HawS P × WawW M × List (Nat × P)) (h : advanceStep ag x = some y) :
    y.1.watermark = x.1.watermark + 1000 := by
  simp only [advanceStep, Option.map_eq_some'] at h
  obtain ⟨z, hz, hy⟩ := h
  have h2 := handleWindowMaybe_watermark _ _ _ _ hz
  rw [← hy]
  show z.1.watermark = _
  rw [h2, hawTick_watermark]
  congr 1
  split <;> rfl

theorem advanceLoop_watermark {I M P : Type} (ag : AggOps I M P) (n : Nat)
    (x y : HawS P × WawW M × List (Nat × P)) (h : advanceLoop ag n x = some y) :
    y.1.watermark = x.1.watermark + 1000 * n := by
  induction n generalizing x with
  | zero => simp [advanceLoop] at h; simp [h]
  | succ k ih =>
    simp only [advanceLoop, Option.bind_eq_some] at h
    obtain ⟨z, hz, hl⟩ := h
    have h1 := advanceStep_watermark ag x z hz
    have h2 := ih z hl
    rw [h2, h1]
    ring

theorem windowEmit_fst {I M P : Type} (ag : AggOps I M P) (st : HawS P) (mgr : WindowM P)
    (pair : Option P) (ws : List (Nat × P)) :
    (windowEmit ag st mgr pair ws).1 = (windowEmit ag st mgr pair []).1 := by
  unfold windowEmit
  dsimp only
  split <;> rfl

theorem windowEmit_snd {I M P : Type} (ag : AggOps I M P) (st : HawS P) (mgr : WindowM P)
    (pair : Option P) (ws : List (Nat × P)) :
    (windowEmit ag st mgr pair ws).2 = ws ++ (windowEmit ag st mgr pair []).2 := by
  unfold windowEmit
  dsimp only
  split <;> simp

theorem handleWindowMaybe_shift {I M P : Type} (ag : AggOps I M P) (st : HawS P)
    (ws : List (Nat × P)) :
    handleWindowMaybe ag st ws =
      (handleWindowMaybe ag st []).map (fun y => (y.1, ws ++ y.2)) := by
  unfold handleWindowMaybe
  split
  · simp
  · dsimp only
    split
    · simp
    · split
      · simp
      · simp only [Option.map_some']
        rw [Option.some_inj]
        exact Prod.ext (windowEmit_fst ag st _ _ ws) (windowEmit_snd ag st _ _ ws)

theorem advanceStep_shift {I M P : Type} (ag : AggOps I M P) (st : HawS P) (waw : WawW M)
    (ws : List (Nat × P)) :
    advanceStep ag (st, waw, ws) =
      (advanceStep ag (st, waw, [])).map (fun o => (o.1, o.2.1, ws ++ o.2.2)) := by
  unfold advanceStep
  dsimp only
  rw [handleWindowMaybe_shift]
  cases handleWindowMaybe ag
      (hawTick ag (if st.flags.generateDeltas then { st with delta := st.delta ++ [(wawTick waw).1.map ag.freeze] } else st)
        ((wawTick waw).1.map ag.freeze)) [] <;> simp

theorem advanceLoop_shift {I M P : Type} (ag : AggOps I M P) (n : Nat) (st : HawS P)
    (waw : WawW M) (ws : List (Nat × P)) :
    advanceLoop ag n (st, waw, ws) =
      (advanceLoop ag n (st, waw, [])).map (fun o => (o.1, o.2.1, ws ++ o.2.2)) := by
  induction n generalizing st waw ws with
  | zero => simp [advanceLoop]
  | succ k ih =>
    simp only [advanceLoop]
    rw [advanceStep_shift]
    cases hs : advanceStep ag (st, waw, []) with
    | none => simp
    | some z =>
      simp only [Option.map_some', Option.some_bind]
      rw [ih z.1 z.2.1 (ws ++ z.2.2), ih z.1 z.2.1 z.2.2]
      cases advanceLoop ag k (z.1, z.2.1, []) <;> simp

theorem advanceLoop_add {I M P : Type} (ag : AggOps I M P) (m n : Nat)
    (x : HawS P × WawW M × List (Nat × P)) :
    advanceLoop ag (m + n) x = (advanceLoop ag m x).bind (advanceLoop ag n) := by
  induction m generalizing x with
  | zero => simp [advanceLoop]
  | succ k ih =>
    rw [Nat.succ_add]
    simp only [advanceLoop]
    cases advanceStep ag x with
    | none => simp
    | some z => simp [ih z]

theorem tdiv_natCast (a b : Nat) : Int.tdiv (a : Int) (b : Int) = ((a / b : Nat) : Int) := rfl

theorem tdiv_natCast_1000 (a : Nat) : Int.tdiv (a : Int) 1000 = ((a / 1000 : Nat) : Int) := rfl

theorem usizeWrap_small (n : Nat) (h : n < U64LIMIT) : usizeWrap (n : Int) = n := by
  simp only [usizeWrap, U64LIMIT] at *
  omega

theorem usizeWrap_wholeSec (s : Nat) (h : s ≤ CYCLE_LEN_SECS) :
    usizeWrap (Int.tdiv ((1000 * s : Nat) : Int) 1000) = s := by
  rw [tdiv_natCast_1000]
  rw [Nat.mul_div_cancel_left s (by norm_num : 0 < 1000)]
  exact usizeWrap_small s (by simp only [CYCLE_LEN_SECS] at h; simp only [U64LIMIT]; omega)

/-- C4: for a non-negative in-range duration, advance performs exactly
floor(d_ms / 1000) ticks of the HAW when that count is within one full cycle
(each completed run raising the watermark by exactly 1000 ms per tick), and
clears all wheels instead (leaving the watermark unchanged) when the count
exceeds the cycle length. -/
theorem c4_advance_tick_count {I M P : Type} (ag : AggOps I M P) (st : HawS P) (waw : WawW M)
    (durMs : Int) (h0 : 0 ≤ durMs) (h1 : durMs < 2 ^ 63) :
    usizeWrap (Int.tdiv durMs 1000) = durMs.toNat / 1000 ∧
    (durMs.toNat / 1000 ≤ CYCLE_LEN_SECS →
      hawAdvance ag st waw durMs = advanceLoop ag (durMs.toNat / 1000) (st, waw, []) ∧
      ∀ out, hawAdvance ag st waw durMs = some out →
        out.1.watermark = st.watermark + 1000 * (durMs.toNat / 1000)) ∧
    (CYCLE_LEN_SECS < durMs.toNat / 1000 →
      hawAdvance ag st waw durMs = some (hawClear st, waw, []) ∧
      (hawClear st).watermark = st.watermark) := by
  have hdn : durMs = ((durMs.toNat : Nat) : Int) := (Int.toNat_of_nonneg h0).symm
  have hw : usizeWrap (Int.tdiv durMs 1000) = durMs.toNat / 1000 := by
    conv_lhs => rw [hdn]
    rw [tdiv_natCast_1000]
    refine usizeWrap_small _ ?_
    have : durMs.toNat < 2 ^ 63 := by omega
    simp only [U64LIMIT]
    omega
  refine ⟨hw, ?_, ?_⟩
  · intro hle
    have hEq : hawAdvance ag st waw durMs = advanceLoop ag (durMs.toNat / 1000) (st, waw, []) := by
      unfold hawAdvance
      rw [hw]
      simp [hle]
    refine ⟨hEq, ?_⟩
    intro out hout
    rw [hEq] at hout
    have := advanceLoop_watermark ag (durMs.toNat / 1000) (st, waw, []) out hout
    simpa using this
  · intro hgt
    unfold hawAdvance
    rw [hw]
    have : ¬ (durMs.toNat / 1000 ≤ CYCLE_LEN_SECS) := by omega
    simp [this]
    rfl

/-- A fresh HAW over the Nat sum aggregator at watermark 0. -/
def hawEx : HawS Nat := freshHaw 0 .Drop .Array ⟨false, 15000, false⟩

/-- C4 witness at a concrete two-second duration. -/
theorem c4_advance_tick_count_witness :
    usizeWrap (Int.tdiv 2000 1000) = (2000 : Int).toNat / 1000 ∧
    ((2000 : Int).toNat / 1000 ≤ CYCLE_LEN_SECS →
      hawAdvance natSumAgg hawEx (defaultWaw Nat) 2000 =
        advanceLoop natSumAgg ((2000 : Int).toNat / 1000) (hawEx, defaultWaw Nat, []) ∧
      ∀ out, hawAdvance natSumAgg hawEx (defaultWaw Nat) 2000 = some out →
        out.1.watermark = hawEx.watermark + 1000 * ((2000 : Int).toNat / 1000)) ∧
    (CYCLE_LEN_SECS < (2000 : Int).toNat / 1000 →
      hawAdvance natSumAgg hawEx (defaultWaw Nat) 2000 = some (hawClear hawEx, defaultWaw Nat, []) ∧
      (hawClear hawEx).watermark = hawEx.watermark) :=
  c4_advance_tick_count natSumAgg hawEx (defaultWaw Nat) 2000 (by norm_num) (by norm_num)

/-- HAW advanced one tick from hawEx: its seconds wheel is allocated. -/
def c10st : HawS Nat := deltaAdvance natSumAgg hawEx [some 5]

/-- C10 counterexample: for the strictly negative duration -500 ms,
whole_seconds truncates to 0, so advance performs zero ticks and does not
clear the wheels: the allocated seconds wheel survives. -/
theorem c10_subsecond_not_cleared :
    ((-500 : Int) < 0) ∧
    hawAdvance natSumAgg c10st (defaultWaw Nat) (-500) = some (c10st, defaultWaw Nat, []) ∧
    c10st.seconds.inner ≠ none ∧ (hawClear c10st).seconds.inner = none := by
  decide

/-- C10 (amended): for every duration of at least one whole negative second
(within the i64 range), the i64-to-usize cast wraps the negative tick count to
a value exceeding the cycle length, so advance takes the clear-all branch,
returns an empty window vector, and leaves the watermark unchanged. -/
theorem c10_whole_negative_clears {I M P : Type} (ag : AggOps I M P) (st : HawS P)
    (waw : WawW M) (durMs : Int) (h1 : durMs ≤ -1000) (h2 : -(2 ^ 63) ≤ durMs) :
    CYCLE_LEN_SECS < usizeWrap (Int.tdiv durMs 1000) ∧
    hawAdvance ag st waw durMs = some (hawClear st, waw, []) ∧
    (hawClear st).watermark = st.watermark := by
  have hk : durMs = -(((-durMs).toNat : Nat) : Int) := by omega
  have ht : Int.tdiv durMs 1000 = -((((-durMs).toNat / 1000 : Nat) : Nat) : Int) := by
    conv_lhs => rw [hk]
    rw [Int.neg_tdiv, tdiv_natCast_1000]
  have hbig : CYCLE_LEN_SECS < usizeWrap (Int.tdiv durMs 1000) := by
    rw [ht]
    simp only [usizeWrap, U64LIMIT, CYCLE_LEN_SECS]
    omega
  refine ⟨hbig, ?_, rfl⟩
  unfold hawAdvance
  have : ¬ (usizeWrap (Int.tdiv durMs 1000) ≤ CYCLE_LEN_SECS) := by omega
  simp [this]

/-- C10 witness at a concrete -5000 ms duration. -/
theorem c10_whole_negative_clears_witness :
    CYCLE_LEN_SECS < usizeWrap (Int.tdiv (-5000) 1000) ∧
    hawAdvance natSumAgg c10st (defaultWaw Nat) (-5000) =
      some (hawClear c10st, defaultWaw Nat, []) ∧
    (hawClear c10st).watermark = c10st.watermark :=
  c10_whole_negative_clears natSumAgg c10st (defaultWaw Nat) (-5000) (by norm_num) (by norm_num)

/-- C8 counterexample: with sub-second durations the advance law fails:
advancing twice by 500 ms performs no tick at all (watermark stays 0), while
advancing once by 1000 ms performs one tick (watermark 1000), although
500 + 500 ms is within one cycle. -/
theorem c8_subsecond_not_additive :
    ((hawAdvance natSumAgg hawEx (defaultWaw Nat) 500).bind
        (fun o => hawAdvance natSumAgg o.1 o.2.1 500)).map (fun o => o.1.watermark) = some 0 ∧
    (hawAdvance natSumAgg hawEx (defaultWaw Nat) 1000).map (fun o => o.1.watermark) = some 1000 ∧
    (500 + 500 : Int) ≤ 1000 * (CYCLE_LEN_SECS : Int) := by
  decide

/-- C8 (amended): for whole-second durations with total within one cycle,
advancing by s1 then s2 seconds reaches exactly the HAW and write-ahead state
of a single advance by s1 + s2 seconds (window results are emitted across the
two calls instead of one). -/
theorem c8_whole_seconds_advance {I M P : Type} (ag : AggOps I M P) (st : HawS P)
    (waw : WawW M) (s1 s2 : Nat) (h : s1 + s2 ≤ CYCLE_LEN_SECS)
    (out1 : HawS P × WawW M × List (Nat × P))
    (h1 : hawAdvance ag st waw ((1000 * s1 : Nat) : Int) = some out1)
    (out2 : HawS P × WawW M × List (Nat × P))
    (h2 : hawAdvance ag out1.1 out1.2.1 ((1000 * s2 : Nat) : Int) = some out2) :
    ∃ ws, hawAdvance ag st waw ((1000 * (s1 + s2) : Nat) : Int) = some (out2.1, out2.2.1, ws) := by
  have hw1 := usizeWrap_wholeSec s1 (by omega)
  have hw2 := usizeWrap_wholeSec s2 (by omega)
  have hw12 := usizeWrap_wholeSec (s1 + s2) h
  unfold hawAdvance at h1 h2 ⊢
  rw [hw1] at h1
  rw [hw2] at h2
  rw [hw12]
  simp only [show s1 ≤ CYCLE_LEN_SECS by omega, show s2 ≤ CYCLE_LEN_SECS by omega, h,
    if_true, if_pos] at h1 h2 ⊢
  rw [advanceLoop_add]
  rw [h1]
  simp only [Option.some_bind]
  rw [show (out1 : HawS P × WawW M × List (Nat × P)) = (out1.1, out1.2.1, out1.2.2) from rfl]
  rw [advanceLoop_shift]
  rw [h2]
  exact ⟨out1.2.2 ++ out2.2.2, rfl⟩

/-- The state after advancing hawEx by one second against a default writer
wheel. -/
def c8out1 : HawS Nat × WawW Nat × List (Nat × Nat) :=
  (hawAdvance natSumAgg hawEx (defaultWaw Nat) ((1000 * 1 : Nat) : Int)).getD
    (hawEx, defaultWaw Nat, [])

/-- The state after advancing c8out1 by two more seconds. -/
def c8out2 : HawS Nat × WawW Nat × List (Nat × Nat) :=
  (hawAdvance natSumAgg c8out1.1 c8out1.2.1 ((1000 * 2 : Nat) : Int)).getD
    (hawEx, defaultWaw Nat, [])

/-- C8 witness: the amended law applied at one and two whole seconds. -/
theorem c8_whole_seconds_advance_witness :
    ∃ ws, hawAdvance natSumAgg hawEx (defaultWaw Nat) ((1000 * (1 + 2) : Nat) : Int) =
      some (c8out2.1, c8out2.2.1, ws) :=
  c8_whole_seconds_advance natSumAgg hawEx (defaultWaw Nat) 1 2 (by norm_num [CYCLE_LEN_SECS])
    c8out1 (by decide) c8out2 (by decide)

theorem hawAdvance_mono {I M P : Type} (ag : AggOps I M P) (st : HawS P) (waw : WawW M)
    (d : Int) (out : HawS P × WawW M × List (Nat × P)) (h : hawAdvance ag st waw d = some out) :
    st.watermark ≤ out.1.watermark := by
  unfold hawAdvance at h
  dsimp only at h
  split at h
  · have := advanceLoop_watermark ag _ _ _ h
    simp at this
    omega
  · rw [Option.some_inj] at h
    rw [← h]
    exact Nat.le_refl st.watermark

theorem mergeWheels_watermark {I M P : Type} (ag : AggOps I M P) (a b : HawS P) :
    (mergeWheels ag a b).watermark = a.watermark := rfl

theorem applyOp_mono {I M P : Type} (ag : AggOps I M P) (op : HawOp P)
    (x y : HawS P × WawW M) (h : applyOp ag op x = some y) :
    x.1.watermark ≤ y.1.watermark := by
  cases op with
  | advance d =>
    simp only [applyOp, Option.map_eq_some'] at h
    obtain ⟨o, ho, hy⟩ := h
    rw [← hy]
    exact hawAdvance_mono ag _ _ _ _ ho
  | advanceTo w =>
    simp only [applyOp, hawAdvanceTo, Option.map_eq_some'] at h
    obtain ⟨o, ho, hy⟩ := h
    rw [← hy]
    exact hawAdvance_mono ag _ _ _ _ ho
  | deltaAdv ds =>
    simp only [applyOp, Option.some_inj] at h
    rw [← h]
    show x.1.watermark ≤ (deltaAdvance ag x.1 ds).watermark
    rw [deltaAdvance_watermark]
    omega
  | windowInstall r s =>
    simp only [applyOp, hawWindow, Option.map_eq_some'] at h
    obtain ⟨o, ho, hy⟩ := h
    split at ho
    · rw [Option.some_inj] at ho
      rw [← hy, ← ho]
    · exact absurd ho (by simp)
  | merge other =>
    simp only [applyOp, hawMerge, Option.map_eq_some'] at h
    obtain ⟨o, ho, hy⟩ := h
    split at ho
    · simp only [Option.map_eq_some'] at ho
      obtain ⟨o2, _, ho2⟩ := ho
      rw [← hy, ← ho2, mergeWheels_watermark]
    · simp only [Option.map_eq_some'] at ho
      obtain ⟨o2, ho2, hoe⟩ := ho
      rw [← hy, ← hoe, mergeWheels_watermark]
      exact hawAdvance_mono ag _ _ _ _ ho2
  | query r =>
    simp only [applyOp, Option.map_eq_some'] at h
    obtain ⟨o, _, hy⟩ := h
    rw [← hy]

theorem applyOps_none {I M P : Type} (ag : AggOps I M P) (ops : List (HawOp P)) :
    List.foldl (fun acc op => acc.bind (applyOp ag op)) (none : Option (HawS P × WawW M)) ops
      = none := by
  induction ops with
  | nil => rfl
  | cons o os ih => simp [ih]

/-- C6: the watermark is monotone non-decreasing under every completed
sequence of public operations, and advance_to with a regressed watermark
performs zero ticks, leaving the state (and writer wheel) untouched. -/
theorem c6_watermark_monotone {I M P : Type} (ag : AggOps I M P) (ops : List (HawOp P))
    (x : HawS P × WawW M) :
    (∀ y, applyOps ag ops x = some y → x.1.watermark ≤ y.1.watermark) ∧
    (∀ w, w < x.1.watermark → applyOp ag (HawOp.advanceTo w) x = some x) := by
  constructor
  · intro y h
    induction ops generalizing x with
    | nil =>
      simp only [applyOps, List.foldl_nil, Option.some_inj] at h
      rw [← h]
    | cons op ops ih =>
      simp only [applyOps, List.foldl_cons, Option.some_bind] at h
      cases hop : applyOp ag op x with
      | none =>
        rw [hop] at h
        rw [applyOps_none] at h
        exact absurd h (by simp)
      | some z =>
        rw [hop] at h
        exact le_trans (applyOp_mono ag op x z hop) (ih z h)
  · intro w hw
    simp only [applyOp, hawAdvanceTo, hawAdvance]
    have hz : (w - x.1.watermark : Nat) = 0 := by omega
    rw [hz]
    simp only [Nat.cast_zero]
    have h0 : usizeWrap (Int.tdiv (0 : Int) 1000) = 0 := by decide
    rw [h0]
    simp [advanceLoop, CYCLE_LEN_SECS]

/-- A two-second advance applied to (c10st, default waw), used as the C6
witness run. -/
def c6y : HawS Nat × WawW Nat :=
  (applyOps natSumAgg [HawOp.advance 2000] (c10st, defaultWaw Nat)).getD (c10st, defaultWaw Nat)

/-- C6 witness: a completed concrete run never lowers the watermark, and a
regressed advance_to leaves the concrete state untouched. -/
theorem c6_watermark_monotone_witness :
    (c10st, defaultWaw Nat).1.watermark ≤ c6y.1.watermark ∧
    applyOp natSumAgg (HawOp.advanceTo 500) (c10st, defaultWaw Nat) =
      some (c10st, defaultWaw Nat) :=
  ⟨(c6_watermark_monotone natSumAgg [HawOp.advance 2000] (c10st, defaultWaw Nat)).1 c6y
      (by decide),
   (c6_watermark_monotone natSumAgg [] (c10st, defaultWaw Nat)).2 500 (by decide)⟩

/-- The C9 scenario: a u64-sum HAW at watermark 2023-11-09 00:00:00 UTC after
delta_advance [Some 10, None, Some 50, None]. -/
def c9Haw : HawS (ZMod U64LIMIT) :=
  deltaAdvance u64SumAgg (freshHaw 1699488000000 .Drop .Array ⟨false, 15000, false⟩)
    [some 10, none, some 50, none]

/-- C9: the end-to-end seconds-range scenario: combine_range over the first
four and first two seconds, and interval queries of one and four seconds,
produce exactly the spec values. -/
theorem c9_seconds_scenario :
    c9Haw.watermark = 1699488004000 ∧
    combineRange u64SumAgg c9Haw ⟨1699488000, 1699488004⟩ = some (some 60) ∧
    combineRange u64SumAgg c9Haw ⟨1699488000, 1699488002⟩ = some (some 10) ∧
    intervalQ u64SumAgg c9Haw 1 = some (some 0) ∧
    intervalQ u64SumAgg c9Haw 4 = some (some 60) := by
  decide
